import Mathlib

/-!
Shallow embedding of the streaming DFA-alpha1 engine (src/services/dfaService.ts,
the canonical interpolate-based variant) and proofs about it.

Numbers are modelled as rationals (exact arithmetic); the one place where
JavaScript float semantics differ in a way relevant to a claim — comparisons
against NaN — is modelled separately by the `JSVal` type below.
-/

namespace Dfa

/-- Physiological lower bound (ms), `MIN_RR` in the source. -/
def MIN_RR : ℚ := 300

/-- Physiological upper bound (ms), `MAX_RR` in the source. -/
def MAX_RR : ℚ := 1300

/-- Embedding of `linearRegression(x, y)` from the source: returns
`(slope, intercept)` with `slope = (n*sumXY - sumX*sumY) / (n*sumXX - sumX*sumX)`
and `intercept = (sumY - slope*sumX) / n`, where the sums run over the first
`x.length` indices.  Both call sites in the source pass arrays of equal length,
so the index-bounded sums of the source are the sums over the zipped lists. -/
def linearRegression {K : Type} [Field K] (x y : List K) : K × K :=
  let n : K := (x.length : K)
  let sumX := x.sum
  let sumY := y.sum
  let sumXY := ((x.zip y).map (fun p => p.1 * p.2)).sum
  let sumXX := (x.map (fun a => a * a)).sum
  let slope := (n * sumXY - sumX * sumY) / (n * sumXX - sumX * sumX)
  let intercept := (sumY - slope * sumX) / n
  (slope, intercept)

/-- Validity test applied by `preprocessRR` to the candidate sample `val`,
given the list `filtered` of samples emitted so far.  Mirrors the source:
invalid when `val < MIN_RR || val > MAX_RR`, and otherwise, when `filtered`
is non-empty, invalid when `percentChange = |val - prev| / prev` exceeds
`0.3` for `prev` the last emitted value.  In JavaScript a positive
difference divided by `prev = 0` is `Infinity`, which exceeds `0.3`, while
rational division by zero is `0`; the `prev = 0` case is therefore spelled
out (it can only be reached when the range check has already passed, so the
difference is positive there). -/
def rrIsValid (filtered : List ℚ) (val : ℚ) : Bool :=
  if val < MIN_RR ∨ val > MAX_RR then false
  else
    match filtered.getLast? with
    | none => true
    | some prev =>
      if prev = 0 then false
      else if |val - prev| / prev > 3/10 then false else true

/-- One iteration of the `preprocessRR` loop: accept `val` as-is when valid,
otherwise interpolate, clamp, or drop.  `next?` is the next raw sample when
one exists.  The source tests `prev && next`, so JavaScript truthiness makes
a previous or next value equal to `0` behave as if it were absent. -/
def rrStep (filtered : List ℚ) (val : ℚ) (next? : Option ℚ) : List ℚ :=
  if rrIsValid filtered val then filtered ++ [val]
  else
    let prevT : Option ℚ :=
      match filtered.getLast? with
      | some p => if p = 0 then none else some p
      | none => none
    let nextT : Option ℚ :=
      match next? with
      | some nx => if nx = 0 then none else some nx
      | none => none
    match prevT, nextT with
    | some p, some nx => filtered ++ [(p + nx) / 2]
    | some p, none => filtered ++ [p]
    | none, _ => filtered

/-- The `preprocessRR` loop over the remaining raw samples, carrying the list
of samples emitted so far.  At index `i` the source reads
`rrIntervals[i + 1]` when `i + 1 < rrIntervals.length`, i.e. the head of the
remaining tail. -/
def preprocessGo (acc : List ℚ) : List ℚ → List ℚ
  | [] => acc
  | val :: rest => preprocessGo (rrStep acc val rest.head?) rest

/-- Embedding of `preprocessRR` from the source: sequences of fewer than 3
samples are returned unchanged, otherwise the validate/correct loop runs. -/
def preprocessRR (rr : List ℚ) : List ℚ :=
  if rr.length < 3 then rr else preprocessGo [] rr

/-- Loop body of the integration step of `calculateDfaAlpha1`: the running
cumulative sum of `(rr - meanRR)`, emitting each partial sum. -/
def integrateGo (meanRR : ℚ) (currentSum : ℚ) : List ℚ → List ℚ
  | [] => []
  | rr :: rest =>
    let s := currentSum + (rr - meanRR)
    s :: integrateGo meanRR s rest

/-- Embedding of step 2 of `calculateDfaAlpha1` (the Integrator):
`meanRR = cleanRR.reduce((a, b) => a + b, 0) / cleanRR.length`, then the
running cumulative sum of `(rr - meanRR)` in order. -/
def integrate (cleanRR : List ℚ) : List ℚ :=
  let meanRR := cleanRR.sum / (cleanRR.length : ℚ)
  integrateGo meanRR 0 cleanRR

/-- Sum of squared residuals of one box of `calculateF_n`: the box is fitted
by `linearRegression` against the local indices `0, 1, ..., boxSize-1` and
the squared residuals `(segmentY[k] - (slope*k + intercept))^2` are summed.
`getD k 0` is `segmentY[k]`; every caller passes a segment of length exactly
`boxSize`, so the default is never read. -/
def boxRSS (boxSize : ℕ) (segmentY : List ℚ) : ℚ :=
  let segmentX : List ℚ := (List.range boxSize).map (fun (k : ℕ) => (k : ℚ))
  let si := linearRegression segmentX segmentY
  ((List.range boxSize).map (fun (k : ℕ) =>
    let trend := si.1 * (k : ℚ) + si.2
    let residual := segmentY.getD k 0 - trend
    residual * residual)).sum

/-- Total sum of squared residuals accumulated by `calculateF_n` over the
`numBoxes = ⌊N / boxSize⌋` complete boxes; `slice(start, start + boxSize)`
is `(drop start).take boxSize`.  Trailing samples beyond
`numBoxes * boxSize` belong to no box and are discarded. -/
def totalResidualSq (integratedSeries : List ℚ) (boxSize : ℕ) : ℚ :=
  let numBoxes := integratedSeries.length / boxSize
  ((List.range numBoxes).map (fun i =>
    boxRSS boxSize ((integratedSeries.drop (i * boxSize)).take boxSize))).sum

/-- The quantity under the square root in `calculateF_n`:
`totalResidualSq / (numBoxes * boxSize)`. -/
def calculateF_n_sq (integratedSeries : List ℚ) (boxSize : ℕ) : ℚ :=
  let numBoxes := integratedSeries.length / boxSize
  totalResidualSq integratedSeries boxSize / ((numBoxes * boxSize : ℕ) : ℚ)

/-- Embedding of `calculateF_n`: `sqrt(totalResidualSq / (numBoxes * boxSize))`.
When `numBoxes = 0` JavaScript computes `sqrt(0 / 0) = NaN`, excluded by the
caller's `Fn > 0` test; here `0 / 0 = 0`, likewise excluded by the same test. -/
noncomputable def calculateF_n (integratedSeries : List ℚ) (boxSize : ℕ) : ℝ :=
  Real.sqrt ((calculateF_n_sq integratedSeries boxSize : ℚ) : ℝ)

/-- The fixed box-size set of `calculateDfaAlpha1`. -/
def boxSizes : List ℕ := [4, 5, 6, 7, 8, 9, 10, 11, 12, 13, 14, 15, 16]

/-- Box sizes whose fluctuation passes the `Fn > 0` test of
`calculateDfaAlpha1`; since `Fn = sqrt(Fn_sq)` with `Fn_sq ≥ 0`, the test
`Fn > 0` is equivalent to `Fn_sq > 0` (proved in `calculateF_n_pos_iff`),
which keeps the selection decidable. -/
def goodBoxSizes (integratedSeries : List ℚ) : List ℕ :=
  boxSizes.filter (fun n => 0 < calculateF_n_sq integratedSeries n)

/-- Embedding of `calculateDfaAlpha1`: preprocess; return `none` (`null`)
when fewer than 50 cleaned samples remain; otherwise integrate, collect
`(log10 n, log10 F(n))` for the box sizes with `F(n) > 0`, and return the
slope of the log-log regression.  `Math.log10` is `Real.logb 10`. -/
noncomputable def calculateDfaAlpha1 (rrIntervals : List ℚ) : Option ℝ :=
  let cleanRR := preprocessRR rrIntervals
  if cleanRR.length < 50 then none
  else
    let integratedSeries := integrate cleanRR
    let good := goodBoxSizes integratedSeries
    let logN : List ℝ := good.map (fun n => Real.logb 10 (n : ℝ))
    let logFn : List ℝ := good.map (fun n => Real.logb 10 (calculateF_n integratedSeries n))
    some (linearRegression logN logFn).1

/-- JavaScript double value for the malformed-sample analysis: `nan`,
`posInf`, `negInf`, or a finite value (taken exact, as a rational; rounding
plays no role in the comparisons the validator performs).  The sign of zero
is not tracked: the inputs of interest never produce a negative zero along
the validator's paths. -/
inductive JSVal where
  | nan : JSVal
  | posInf : JSVal
  | negInf : JSVal
  | fin : ℚ → JSVal
deriving DecidableEq

namespace JSVal

/-- JavaScript `<`: every comparison involving NaN is false. -/
def lt : JSVal → JSVal → Bool
  | nan, _ => false
  | _, nan => false
  | negInf, negInf => false
  | negInf, _ => true
  | posInf, _ => false
  | fin _, negInf => false
  | fin _, posInf => true
  | fin a, fin b => decide (a < b)

/-- JavaScript `>`. -/
def gt (a b : JSVal) : Bool := lt b a

/-- JavaScript subtraction. -/
def sub : JSVal → JSVal → JSVal
  | nan, _ => nan
  | _, nan => nan
  | posInf, posInf => nan
  | posInf, _ => posInf
  | negInf, negInf => nan
  | negInf, _ => negInf
  | fin _, posInf => negInf
  | fin _, negInf => posInf
  | fin a, fin b => fin (a - b)

/-- JavaScript addition. -/
def add : JSVal → JSVal → JSVal
  | nan, _ => nan
  | _, nan => nan
  | posInf, negInf => nan
  | negInf, posInf => nan
  | posInf, _ => posInf
  | _, posInf => posInf
  | negInf, _ => negInf
  | _, negInf => negInf
  | fin a, fin b => fin (a + b)

/-- JavaScript `Math.abs`. -/
def jsAbs : JSVal → JSVal
  | nan => nan
  | posInf => posInf
  | negInf => posInf
  | fin a => fin |a|

/-- JavaScript division; a nonzero finite value divided by (positive) zero
is a signed infinity, `0 / 0` is NaN. -/
def div : JSVal → JSVal → JSVal
  | nan, _ => nan
  | _, nan => nan
  | posInf, posInf => nan
  | posInf, negInf => nan
  | negInf, posInf => nan
  | negInf, negInf => nan
  | posInf, fin b => if b < 0 then negInf else posInf
  | negInf, fin b => if b < 0 then posInf else negInf
  | fin _, posInf => fin 0
  | fin _, negInf => fin 0
  | fin a, fin b =>
    if b = 0 then (if a = 0 then nan else if a < 0 then negInf else posInf)
    else fin (a / b)

/-- JavaScript truthiness of a number: `0` and `NaN` are falsy. -/
def truthy : JSVal → Bool
  | nan => false
  | fin a => decide (a ≠ 0)
  | _ => true

end JSVal

open JSVal in
/-- Validity test of `preprocessRR` under JavaScript numeric semantics. -/
def rrIsValidJS (filtered : List JSVal) (val : JSVal) : Bool :=
  if lt val (fin 300) || gt val (fin 1300) then false
  else
    match filtered.getLast? with
    | none => true
    | some prev =>
      if gt (div (jsAbs (sub val prev)) prev) (fin (3/10)) then false else true

open JSVal in
/-- One iteration of the `preprocessRR` loop under JavaScript numeric
semantics, including the `prev && next` truthiness tests. -/
def rrStepJS (filtered : List JSVal) (val : JSVal) (next? : Option JSVal) : List JSVal :=
  if rrIsValidJS filtered val then filtered ++ [val]
  else
    let prevT : Option JSVal :=
      match filtered.getLast? with
      | some p => if truthy p then some p else none
      | none => none
    let nextT : Option JSVal :=
      match next? with
      | some nx => if truthy nx then some nx else none
      | none => none
    match prevT, nextT with
    | some p, some nx => filtered ++ [div (add p nx) (fin 2)]
    | some p, none => filtered ++ [p]
    | none, _ => filtered

/-- The `preprocessRR` loop under JavaScript numeric semantics. -/
def preprocessGoJS (acc : List JSVal) : List JSVal → List JSVal
  | [] => acc
  | v :: rest => preprocessGoJS (rrStepJS acc v rest.head?) rest

/-- Embedding of `preprocessRR` under JavaScript numeric semantics, for
inputs that may contain non-finite values. -/
def preprocessJS (rr : List JSVal) : List JSVal :=
  if rr.length < 3 then rr else preprocessGoJS [] rr

/-- A fully valid 49-sample input: 49 copies of 800 ms. -/
def sample49 : List ℚ := List.replicate 49 800

/-- Concatenation of `n` copies of the pair `800, 820` (mild alternating
variability, every jump 2.5 percent or less). -/
def altPairs : ℕ → List ℚ
  | 0 => []
  | n + 1 => 800 :: 820 :: altPairs n

/-- A fully valid 50-sample input: 25 alternating pairs `800, 820`. -/
def sample50 : List ℚ := altPairs 25

/-! ### Lemmas about the Validator/Corrector -/

/-- The relative-jump acceptance relation of the spec: the later sample
differs from the earlier by at most 30 percent of the earlier. -/
def relOk (a b : ℚ) : Prop := |b - a| / a ≤ 3/10

/-- Definition following the words of the spec (sections 4.3 and 9): the
OLS slope in the standard covariance-over-variance closed form,
`Σ(xᵢ-x̄)(yᵢ-ȳ) / Σ(xᵢ-x̄)²`. -/
def specOlsSlope (x y : List ℚ) : ℚ :=
  let xbar := x.sum / (x.length : ℚ)
  let ybar := y.sum / (y.length : ℚ)
  (((x.zip y).map (fun p => (p.1 - xbar) * (p.2 - ybar))).sum) /
    ((x.map (fun a => (a - xbar) * (a - xbar))).sum)

/-- Definition following the words of the spec: the OLS intercept
`ȳ - slope·x̄`. -/
def specOlsIntercept (x y : List ℚ) : ℚ :=
  y.sum / (y.length : ℚ) - specOlsSlope x y * (x.sum / (x.length : ℚ))

/-- Definition following the words of the spec (§4.3, step 2): the sum of
squared residuals `(sample - fitted trend)²` over one box, where the trend
is the spec's closed-form OLS line against the local indices `0..n-1`. -/
def specBoxRSS (boxSize : ℕ) (segmentY : List ℚ) : ℚ :=
  let segmentX : List ℚ := (List.range boxSize).map (fun (k : ℕ) => (k : ℚ))
  let s := specOlsSlope segmentX segmentY
  let b := specOlsIntercept segmentX segmentY
  ((List.range boxSize).map (fun (k : ℕ) =>
    let trend := s * (k : ℚ) + b
    let residual := segmentY.getD k 0 - trend
    residual * residual)).sum

/-- Definition following the words of the spec (§4.3, steps 1-2): the total
sum of squared residuals over the `⌊length / n⌋` non-overlapping contiguous
boxes of exactly `n` samples, discarding the trailing remainder. -/
def specTotalRSS (integratedSeries : List ℚ) (boxSize : ℕ) : ℚ :=
  ((List.range (integratedSeries.length / boxSize)).map (fun i =>
    specBoxRSS boxSize ((integratedSeries.drop (i * boxSize)).take boxSize))).sum

/-- Reduction: the range check fails. -/
theorem rrIsValid_of_range_fail (acc : List ℚ) (val : ℚ)
    (h : val < MIN_RR ∨ val > MAX_RR) : rrIsValid acc val = false := by
  unfold rrIsValid
  rw [if_pos h]

/-- Reduction: range check passes and nothing has been emitted yet. -/
theorem rrIsValid_of_none (acc : List ℚ) (val : ℚ)
    (h : ¬(val < MIN_RR ∨ val > MAX_RR)) (hacc : acc.getLast? = none) :
    rrIsValid acc val = true := by
  unfold rrIsValid
  rw [if_neg h, hacc]

/-- Reduction: range check passes and the last emitted value is a nonzero
`p`; what remains is the 30 percent test against `p`. -/
theorem rrIsValid_of_some (acc : List ℚ) (val p : ℚ)
    (h : ¬(val < MIN_RR ∨ val > MAX_RR)) (hacc : acc.getLast? = some p)
    (hp : p ≠ 0) :
    rrIsValid acc val = (if |val - p| / p > 3/10 then false else true) := by
  unfold rrIsValid
  rw [if_neg h, hacc]
  show (if p = 0 then false else if |val - p| / p > 3/10 then false else true) = _
  rw [if_neg hp]

/-- A sample within bounds whose relative difference from the last emitted
value is acceptable passes `rrIsValid`. -/
theorem rrIsValid_true (acc : List ℚ) (val : ℚ)
    (hrange : MIN_RR ≤ val ∧ val ≤ MAX_RR)
    (hlast : ∀ p, acc.getLast? = some p → 0 < p ∧ relOk p val) :
    rrIsValid acc val = true := by
  have hr : ¬(val < MIN_RR ∨ val > MAX_RR) := by
    push_neg
    exact hrange
  cases hacc : acc.getLast? with
  | none => exact rrIsValid_of_none acc val hr hacc
  | some p =>
    obtain ⟨hp0, hrel⟩ := hlast p hacc
    rw [rrIsValid_of_some acc val p hr hacc (ne_of_gt hp0)]
    rw [if_neg (not_lt.mpr hrel)]

/-- Running the loop over a block of samples that are all in bounds and
chain-linked by `relOk` appends them unchanged, provided the last already
emitted value (if any) is positive and linked to the head of the block. -/
theorem preprocessGo_valid :
    ∀ (l acc : List ℚ),
      (∀ x ∈ l, MIN_RR ≤ x ∧ x ≤ MAX_RR) →
      List.Chain' relOk l →
      (∀ p, acc.getLast? = some p → 0 < p ∧ ∀ a, l.head? = some a → relOk p a) →
      preprocessGo acc l = acc ++ l
  | [], acc, _, _, _ => by simp [preprocessGo]
  | val :: rest, acc, hb, hc, hp => by
    have hval := hb val (by simp)
    have hvalid : rrIsValid acc val = true := by
      refine rrIsValid_true acc val hval (fun p hacc => ?_)
      obtain ⟨hp0, hrel⟩ := hp p hacc
      exact ⟨hp0, hrel val rfl⟩
    have hstep : rrStep acc val rest.head? = acc ++ [val] := by
      unfold rrStep; rw [hvalid]; simp
    have hlink : ∀ p, (acc ++ [val]).getLast? = some p →
        0 < p ∧ ∀ a, rest.head? = some a → relOk p a := by
      intro p hlast
      rw [List.getLast?_concat] at hlast
      obtain rfl : val = p := by injection hlast
      constructor
      · have h300 : (0:ℚ) < MIN_RR := by norm_num [MIN_RR]
        exact lt_of_lt_of_le h300 hval.1
      · intro a ha
        cases rest with
        | nil => simp at ha
        | cons b t =>
          obtain rfl : b = a := by injection ha
          exact (List.chain'_cons.mp hc).1
    rw [preprocessGo, hstep,
      preprocessGo_valid rest (acc ++ [val])
        (fun x hx => hb x (List.mem_cons_of_mem val hx)) hc.tail hlink]
    simp

/-- A fully valid sequence (all samples in bounds, consecutive samples
linked by `relOk`) passes through `preprocessRR` unchanged. -/
theorem preprocess_valid_id (rr : List ℚ)
    (hb : ∀ x ∈ rr, MIN_RR ≤ x ∧ x ≤ MAX_RR)
    (hc : List.Chain' relOk rr) :
    preprocessRR rr = rr := by
  unfold preprocessRR
  split
  · rfl
  · simpa using preprocessGo_valid rr [] hb hc (by simp)

/-- Every value emitted by one loop iteration is positive, provided the
values emitted so far and the next raw sample (if consulted) are positive.
The accepted sample itself is forced positive by the range check. -/
theorem rrStep_pos (acc : List ℚ) (val : ℚ) (next? : Option ℚ)
    (hacc : ∀ x ∈ acc, 0 < x) (hnext : ∀ nx ∈ next?, 0 < nx) :
    ∀ y ∈ rrStep acc val next?, 0 < y := by
  intro y hy
  cases hv : rrIsValid acc val with
  | true =>
    rw [rrStep.eq_def, hv, if_pos rfl] at hy
    rcases List.mem_append.mp hy with h | h
    · exact hacc y h
    · rw [List.mem_singleton] at h
      subst h
      by_contra hneg
      push_neg at hneg
      have hfail := rrIsValid_of_range_fail acc y
        (Or.inl (lt_of_le_of_lt hneg (show (0:ℚ) < MIN_RR by norm_num [MIN_RR])))
      rw [hv] at hfail
      exact absurd hfail (by simp)
  | false =>
    rw [rrStep.eq_def, hv] at hy
    simp only [Bool.false_eq_true, if_false] at hy
    cases hacc2 : acc.getLast? with
    | none =>
      simp only [hacc2] at hy
      exact hacc y hy
    | some p =>
      have hp : 0 < p := hacc p (List.mem_of_mem_getLast? hacc2)
      cases hnx : next? with
      | none =>
        simp only [hacc2, hnx, ne_of_gt hp, if_neg] at hy
        rcases List.mem_append.mp hy with h | h
        · exact hacc y h
        · rw [List.mem_singleton] at h
          subst h
          exact hp
      | some nx =>
        have hnx0 : 0 < nx := hnext nx (by simp [hnx])
        simp only [hacc2, hnx, ne_of_gt hp, ne_of_gt hnx0, if_neg] at hy
        rcases List.mem_append.mp hy with h | h
        · exact hacc y h
        · rw [List.mem_singleton] at h
          subst h
          positivity

/-- The loop preserves positivity of the emitted list. -/
theorem preprocessGo_pos :
    ∀ (l acc : List ℚ), (∀ x ∈ l, 0 < x) → (∀ x ∈ acc, 0 < x) →
      ∀ y ∈ preprocessGo acc l, 0 < y
  | [], acc, _, hacc => by simpa [preprocessGo] using hacc
  | val :: rest, acc, hl, hacc => by
    intro y hy
    rw [preprocessGo] at hy
    refine preprocessGo_pos rest (rrStep acc val rest.head?)
      (fun x hx => hl x (List.mem_cons_of_mem _ hx))
      (rrStep_pos acc val rest.head? hacc
        (fun nx hnx => hl nx (List.mem_cons_of_mem _ (List.mem_of_mem_head? hnx))))
      y hy

/-- On positive raw input every cleaned value is positive: this is the
invariant that justifies the positivity hypotheses on the emitted list in
the acceptance and correction theorems below. -/
theorem preprocessRR_pos (rr : List ℚ) (h : ∀ x ∈ rr, 0 < x) :
    ∀ y ∈ preprocessRR rr, 0 < y := by
  unfold preprocessRR
  split
  · exact h
  · exact preprocessGo_pos rr [] h (by simp)

/-! ### Claim theorems about the Validator/Corrector -/

/-- C9: for every input interval sequence with fewer than 3 samples, the
Validator/Corrector `preprocessRR` returns the input unchanged. -/
theorem preprocessRR_short_unchanged (rr : List ℚ) (h : rr.length < 3) :
    preprocessRR rr = rr := by
  unfold preprocessRR
  exact if_pos h

/-- Witness for C9 at the two-sample input `[500, 600]`. -/
theorem preprocessRR_short_unchanged_witness :
    preprocessRR [500, 600] = [500, 600] :=
  preprocessRR_short_unchanged [500, 600] (by decide)

/-- C10: on any sequence in which every sample lies within [300, 1300] and
every sample after the first differs from its predecessor by at most 30
percent (relative to the predecessor), `preprocessRR` is the identity,
whatever the length. -/
theorem preprocessRR_identity_on_valid (rr : List ℚ)
    (hbounds : ∀ x ∈ rr, (300:ℚ) ≤ x ∧ x ≤ 1300)
    (hchain : List.Chain' (fun a b => |b - a| / a ≤ 3/10) rr) :
    preprocessRR rr = rr :=
  preprocess_valid_id rr (by simpa [MIN_RR, MAX_RR] using hbounds) hchain

unseal Rat.mul Rat.add Rat.sub Rat.inv in
/-- Witness for C10 at the fully valid sequence `[800, 900, 1000, 1100]`. -/
theorem preprocessRR_identity_on_valid_witness :
    preprocessRR [800, 900, 1000, 1100] = [800, 900, 1000, 1100] :=
  preprocessRR_identity_on_valid [800, 900, 1000, 1100] (by decide)
    (by norm_num [List.chain'_cons])

/-- C1: for an input of at least 3 samples `preprocessRR` runs the
validate/correct loop, and that loop accepts a sample as-is exactly when it
lies within [300, 1300] and, once the emitted list is non-empty, its
absolute relative difference from the most recently emitted (accepted or
corrected) value is at most 0.30.  The positivity hypothesis on the emitted
list holds for every state reachable from positive raw samples; it rules
out the degenerate `prev = 0` state, where JavaScript compares against an
infinite relative difference. -/
theorem rrIsValid_accepts_iff (rr acc : List ℚ) (val : ℚ)
    (hlen : 3 ≤ rr.length) (hpos : ∀ x ∈ acc, 0 < x) :
    preprocessRR rr = preprocessGo [] rr ∧
    (rrIsValid acc val = true ↔
      ((300:ℚ) ≤ val ∧ val ≤ 1300 ∧
        (acc = [] ∨ |val - acc.getLast?.getD 0| / acc.getLast?.getD 0 ≤ 3/10))) := by
  constructor
  · unfold preprocessRR
    rw [if_neg (by omega)]
  · by_cases hrange : val < MIN_RR ∨ val > MAX_RR
    · rw [rrIsValid_of_range_fail acc val hrange]
      simp only [MIN_RR, MAX_RR] at hrange
      constructor
      · intro h; exact absurd h (by simp)
      · rintro ⟨h1, h2, _⟩
        rcases hrange with h | h
        · exact absurd h1 (not_le.mpr h)
        · exact absurd h2 (not_le.mpr h)
    · have hrange2 := hrange
      push_neg at hrange2
      have h1 : (300:ℚ) ≤ val := by simpa [MIN_RR] using hrange2.1
      have h2 : val ≤ 1300 := by simpa [MAX_RR] using hrange2.2
      cases hacc : acc.getLast? with
      | none =>
        have hnil : acc = [] := List.getLast?_eq_none_iff.mp hacc
        rw [rrIsValid_of_none acc val hrange hacc]
        simp [hnil, h1, h2]
      | some p =>
        have hp0 : 0 < p := hpos p (List.mem_of_mem_getLast? hacc)
        have hne : acc ≠ [] := by
          intro h; rw [h] at hacc; simp at hacc
        rw [rrIsValid_of_some acc val p hrange hacc (ne_of_gt hp0)]
        simp only [Option.getD_some]
        by_cases hq : |val - p| / p > 3/10
        · rw [if_pos hq]
          constructor
          · intro h; exact absurd h (by simp)
          · rintro ⟨_, _, h3 | h3⟩
            · exact absurd h3 hne
            · exact absurd h3 (not_le.mpr hq)
        · rw [if_neg hq]
          constructor
          · intro _; exact ⟨h1, h2, Or.inr (not_lt.mp hq)⟩
          · intro _; rfl

/-- Witness for C1: with `[800]` emitted so far, the sample `900` (in
bounds, 12.5 percent above 800) is accepted as-is. -/
theorem rrIsValid_accepts_iff_witness :
    preprocessRR [800, 900, 1000] = preprocessGo [] [800, 900, 1000] ∧
    (rrIsValid [800] 900 = true ↔
      ((300:ℚ) ≤ 900 ∧ (900:ℚ) ≤ 1300 ∧
        (([800]:List ℚ) = [] ∨
          |(900:ℚ) - ([800]:List ℚ).getLast?.getD 0| /
            (([800]:List ℚ).getLast?.getD 0) ≤ 3/10))) :=
  rrIsValid_accepts_iff [800, 900, 1000] [800] 900 (by decide) (by decide)

/-- C2: a sample judged invalid is corrected as follows, assuming all
emitted and raw values in play are positive (an invariant of positive raw
input; JavaScript truthiness would treat a zero `prev` or `next` as
absent): with nothing emitted yet it is dropped; with something emitted but
no next raw sample the previous emitted value is repeated; with both, the
arithmetic mean of the previous emitted value and the next raw sample is
emitted. -/
theorem rrStep_invalid_correction (acc : List ℚ) (val : ℚ) (next? : Option ℚ)
    (hpos : ∀ x ∈ acc, 0 < x) (hnext : ∀ nx ∈ next?, 0 < nx)
    (hinvalid : rrIsValid acc val = false) :
    (acc = [] → rrStep acc val next? = acc) ∧
    (acc ≠ [] → next? = none → rrStep acc val next? = acc ++ [acc.getLast?.getD 0]) ∧
    (acc ≠ [] → next? ≠ none →
      rrStep acc val next? = acc ++ [(acc.getLast?.getD 0 + next?.getD 0) / 2]) := by
  unfold rrStep
  rw [hinvalid]
  simp only [Bool.false_eq_true, if_false]
  refine ⟨?_, ?_, ?_⟩
  · intro h; subst h; rfl
  · intro hne hnone
    subst hnone
    cases hacc : acc.getLast? with
    | none => exact absurd (List.getLast?_eq_none_iff.mp hacc) hne
    | some p =>
      have hp0 : 0 < p := hpos p (List.mem_of_mem_getLast? hacc)
      simp [hacc, ne_of_gt hp0]
  · intro hne hsome
    cases hnx : next? with
    | none => exact absurd hnx hsome
    | some nx =>
      have hnx0 : 0 < nx := hnext nx (by simp [hnx])
      cases hacc : acc.getLast? with
      | none => exact absurd (List.getLast?_eq_none_iff.mp hacc) hne
      | some p =>
        have hp0 : 0 < p := hpos p (List.mem_of_mem_getLast? hacc)
        simp [hacc, ne_of_gt hp0, ne_of_gt hnx0]

/-- Witness for C2: with `[800]` emitted, the out-of-range sample `2000`
followed by the raw sample `700` is replaced by the mean `(800 + 700) / 2`. -/
theorem rrStep_invalid_correction_witness :
    rrStep [800] 2000 (some 700) =
      [800] ++ [((([800]:List ℚ).getLast?.getD 0 + (some (700:ℚ)).getD 0) / 2)] :=
  (rrStep_invalid_correction [800] 2000 (some 700) (by decide) (by decide)
    (by decide)).2.2 (by decide) (by decide)

/-! ### The Integrator -/

theorem integrateGo_length (m : ℚ) :
    ∀ (l : List ℚ) (s : ℚ), (integrateGo m s l).length = l.length
  | [], _ => rfl
  | rr :: rest, s => by
    simp [integrateGo, integrateGo_length m rest (s + (rr - m))]

theorem integrateGo_getD (m : ℚ) :
    ∀ (l : List ℚ) (s : ℚ) (k : ℕ), k < l.length →
      (integrateGo m s l).getD k 0 = s + ((l.take (k + 1)).map (fun a => a - m)).sum
  | [], _, k, hk => by simp at hk
  | rr :: rest, s, 0, _ => by simp [integrateGo]
  | rr :: rest, s, k + 1, hk => by
    have hk2 : k < rest.length := by simpa using hk
    simp only [integrateGo, List.getD_cons_succ, List.take_succ_cons, List.map_cons,
      List.sum_cons]
    rw [integrateGo_getD m rest (s + (rr - m)) k hk2]
    ring

/-- C7: on a non-empty cleaned sequence the Integrator output has the same
length as its input, its element `k` is the cumulative sum of
`(element - mean)` over elements `0..k`, and in particular its first
element is `input[0] - mean`. -/
theorem integrate_spec (clean : List ℚ) (k : ℕ) (hne : clean ≠ [])
    (hk : k < clean.length) :
    (integrate clean).length = clean.length ∧
    (integrate clean).getD k 0 =
      ((clean.take (k + 1)).map (fun a => a - clean.sum / (clean.length : ℚ))).sum ∧
    (integrate clean).getD 0 0 = clean.getD 0 0 - clean.sum / (clean.length : ℚ) := by
  have h0 : 0 < clean.length := List.length_pos.mpr hne
  refine ⟨?_, ?_, ?_⟩
  · simp only [integrate]
    exact integrateGo_length _ clean 0
  · simp only [integrate]
    rw [integrateGo_getD _ clean 0 k hk, zero_add]
  · simp only [integrate]
    rw [integrateGo_getD _ clean 0 0 h0, zero_add]
    cases clean with
    | nil => exact absurd rfl hne
    | cons a t => simp

unseal Rat.mul Rat.add Rat.sub Rat.inv in
/-- Witness for C7 at the cleaned sequence `[1, 2, 3]` and index `1`. -/
theorem integrate_spec_witness :
    (integrate [1, 2, 3]).length = ([1, 2, 3] : List ℚ).length ∧
    (integrate [1, 2, 3]).getD 1 0 =
      ((([1, 2, 3] : List ℚ).take 2).map
        (fun a => a - ([1, 2, 3] : List ℚ).sum / (([1, 2, 3] : List ℚ).length : ℚ))).sum ∧
    (integrate [1, 2, 3]).getD 0 0 =
      ([1, 2, 3] : List ℚ).getD 0 0 -
        ([1, 2, 3] : List ℚ).sum / (([1, 2, 3] : List ℚ).length : ℚ) :=
  integrate_spec [1, 2, 3] 1 (by decide) (by decide)

/-! ### Sum identities used for the regression proofs -/

theorem sum_map_add (c : ℚ) :
    ∀ y : List ℚ, (y.map (fun v => v + c)).sum = y.sum + (y.length : ℚ) * c
  | [] => by simp
  | a :: t => by
    simp only [List.map_cons, List.sum_cons, List.length_cons]
    rw [sum_map_add c t]
    push_cast
    ring

theorem zip_mul_sum_add_right (c : ℚ) :
    ∀ x y : List ℚ, x.length = y.length →
      ((x.zip (y.map (fun v => v + c))).map (fun p => p.1 * p.2)).sum
        = ((x.zip y).map (fun p => p.1 * p.2)).sum + c * x.sum
  | [], [], _ => by simp
  | [], _ :: _, h => by simp at h
  | _ :: _, [], h => by simp at h
  | a :: s, b :: t, h => by
    have h2 : s.length = t.length := by simpa using h
    simp only [List.map_cons, List.zip_cons_cons, List.sum_cons]
    rw [zip_mul_sum_add_right c s t h2]
    ring

theorem zip_sub_mul_sum (c d : ℚ) :
    ∀ x y : List ℚ, x.length = y.length →
      ((x.zip y).map (fun p => (p.1 - c) * (p.2 - d))).sum
        = ((x.zip y).map (fun p => p.1 * p.2)).sum - c * y.sum - d * x.sum
          + (x.length : ℚ) * (c * d)
  | [], [], _ => by simp
  | [], _ :: _, h => by simp at h
  | _ :: _, [], h => by simp at h
  | a :: s, b :: t, h => by
    have h2 : s.length = t.length := by simpa using h
    simp only [List.zip_cons_cons, List.map_cons, List.sum_cons, List.length_cons]
    rw [zip_sub_mul_sum c d s t h2]
    push_cast
    ring

theorem map_sub_sq_sum (c : ℚ) :
    ∀ x : List ℚ, (x.map (fun a => (a - c) * (a - c))).sum
      = (x.map (fun a => a * a)).sum - 2 * c * x.sum + (x.length : ℚ) * (c * c)
  | [] => by simp
  | a :: s => by
    simp only [List.map_cons, List.sum_cons, List.length_cons]
    rw [map_sub_sq_sum c s]
    push_cast
    ring

theorem list_range_map_sum (f : ℕ → ℚ) (n : ℕ) :
    ((List.range n).map f).sum = ∑ k in Finset.range n, f k := by
  induction n with
  | zero => simp
  | succ m ih =>
    rw [List.range_succ, List.map_append, List.sum_append, Finset.sum_range_succ, ih]
    simp

theorem list_range_cast_map_sum (g : ℚ → ℚ) (n : ℕ) :
    (((List.range n).map (fun (k : ℕ) => (k : ℚ))).map g).sum
      = ∑ k in Finset.range n, g (k : ℚ) := by
  induction n with
  | zero => simp
  | succ m ih =>
    rw [List.range_succ, List.map_append, List.map_append, List.sum_append,
      Finset.sum_range_succ, ih]
    simp

/-- For a box of at least two samples, the sum of squared deviations of the
local indices `0, 1, ..., n-1` from any constant is positive: the indices
`0` and `1` cannot both equal the constant. -/
theorem range_sq_dev_sum_pos (n : ℕ) (hn : 2 ≤ n) (c : ℚ) :
    0 < ((((List.range n).map (fun (k : ℕ) => (k : ℚ))).map
      (fun a => (a - c) * (a - c)))).sum := by
  rw [list_range_cast_map_sum]
  have hsub : ({0, 1} : Finset ℕ) ⊆ Finset.range n := by
    intro k hk
    simp only [Finset.mem_insert, Finset.mem_singleton] at hk
    rcases hk with rfl | rfl <;> simp [Finset.mem_range] <;> omega
  have hmono : ∑ k in ({0, 1} : Finset ℕ), (((k : ℚ)) - c) * (((k : ℚ)) - c)
      ≤ ∑ k in Finset.range n, (((k : ℚ)) - c) * (((k : ℚ)) - c) := by
    refine Finset.sum_le_sum_of_subset_of_nonneg hsub (fun i _ _ => ?_)
    exact mul_self_nonneg _
  have hpos : (0:ℚ) < ∑ k in ({0, 1} : Finset ℕ), (((k : ℚ)) - c) * (((k : ℚ)) - c) := by
    rw [Finset.sum_insert (by simp), Finset.sum_singleton]
    push_cast
    nlinarith [sq_nonneg (2 * c - 1)]
  calc (0:ℚ) < _ := hpos
    _ ≤ _ := hmono

/-! ### The spec's closed-form OLS formulas (covariance-over-variance) -/

/-- The source's `linearRegression` computes exactly the spec's
covariance-over-variance OLS fit whenever the lists have equal length and
the x-values have nonzero squared deviation from their mean. -/
theorem linearRegression_eq_spec (x y : List ℚ) (hlen : x.length = y.length)
    (hvar : (x.map (fun a =>
        (a - x.sum / (x.length : ℚ)) * (a - x.sum / (x.length : ℚ)))).sum ≠ 0) :
    linearRegression x y = (specOlsSlope x y, specOlsIntercept x y) := by
  have hx : x ≠ [] := by
    rintro rfl
    simp at hvar
  have hn0 : (x.length : ℚ) ≠ 0 := by
    have h := List.length_pos.mpr hx
    exact_mod_cast Nat.pos_iff_ne_zero.mp h
  have hny : (y.length : ℚ) = (x.length : ℚ) := by rw [hlen]
  have hkeyD : (x.map (fun a => a * a)).sum
      - 2 * (x.sum / (x.length : ℚ)) * x.sum
      + (x.length : ℚ) * (x.sum / (x.length : ℚ) * (x.sum / (x.length : ℚ)))
      = ((x.length : ℚ) * (x.map (fun a => a * a)).sum - x.sum * x.sum)
          / (x.length : ℚ) := by
    field_simp
    ring
  have hkeyN : ((x.zip y).map (fun p => p.1 * p.2)).sum
      - x.sum / (x.length : ℚ) * y.sum
      - y.sum / (x.length : ℚ) * x.sum
      + (x.length : ℚ) * (x.sum / (x.length : ℚ) * (y.sum / (x.length : ℚ)))
      = ((x.length : ℚ) * ((x.zip y).map (fun p => p.1 * p.2)).sum
          - x.sum * y.sum) / (x.length : ℚ) := by
    field_simp
    ring
  rw [map_sub_sq_sum] at hvar
  have hD2 : (x.length : ℚ) * (x.map (fun a => a * a)).sum - x.sum * x.sum ≠ 0 := by
    intro h
    apply hvar
    rw [hkeyD, h, zero_div]
  have hslope : specOlsSlope x y
      = ((x.length : ℚ) * ((x.zip y).map (fun p => p.1 * p.2)).sum - x.sum * y.sum)
        / ((x.length : ℚ) * (x.map (fun a => a * a)).sum - x.sum * x.sum) := by
    simp only [specOlsSlope]
    rw [zip_sub_mul_sum _ _ x y hlen, map_sub_sq_sum, hny, hkeyN, hkeyD,
      div_div_div_comm, div_self hn0, div_one]
  simp only [linearRegression, Prod.mk.injEq]
  refine ⟨hslope.symm, ?_⟩
  simp only [specOlsIntercept]
  rw [hny, hslope, sub_div, mul_div_assoc]

/-! ### The Fluctuation Estimator against the spec's formulas -/

theorem boxRSS_eq_spec (n : ℕ) (seg : List ℚ) (hn : 2 ≤ n)
    (hlen : seg.length = n) :
    boxRSS n seg = specBoxRSS n seg := by
  have hxlen : ((List.range n).map (fun (k : ℕ) => (k : ℚ))).length = seg.length := by
    simp [hlen]
  have heq := linearRegression_eq_spec ((List.range n).map (fun (k : ℕ) => (k : ℚ)))
    seg hxlen (ne_of_gt (range_sq_dev_sum_pos n hn _))
  simp only [boxRSS, specBoxRSS]
  rw [heq]

/-- A box strictly inside the partition has exactly `boxSize` samples. -/
theorem seg_length_of_lt (series : List ℚ) (n i : ℕ) (hn : 0 < n)
    (hi : i < series.length / n) :
    ((series.drop (i * n)).take n).length = n := by
  have h1 : i * n + n ≤ series.length := by
    have h2 : i + 1 ≤ series.length / n := hi
    calc i * n + n = (i + 1) * n := by ring
      _ ≤ (series.length / n) * n := Nat.mul_le_mul_right n h2
      _ ≤ series.length := Nat.div_mul_le_self _ _
  simp only [List.length_take, List.length_drop]
  omega

theorem totalResidualSq_eq_spec (series : List ℚ) (n : ℕ) (hn : 2 ≤ n) :
    totalResidualSq series n = specTotalRSS series n := by
  simp only [totalResidualSq, specTotalRSS]
  refine congrArg List.sum (List.map_congr_left fun i hi => ?_)
  rw [List.mem_range] at hi
  exact boxRSS_eq_spec n _ hn (seg_length_of_lt series n i (by omega) hi)

/-- C3: with at least one complete box (and a box size of at least 2, so
that the OLS denominator is nonzero, as §4.3 of the spec notes), the
fluctuation `F(n)` equals `sqrt(S / (numBoxes · n))` where
`numBoxes = ⌊length / n⌋` and `S` is the total of the per-box squared
residuals from the spec's closed-form OLS fit against local indices; the
source's accumulated `totalResidualSq` is exactly that `S`. -/
theorem calculateF_n_formula (series : List ℚ) (n : ℕ) (hn : 2 ≤ n)
    (hbox : n ≤ series.length) :
    1 ≤ series.length / n ∧
    totalResidualSq series n = specTotalRSS series n ∧
    calculateF_n series n =
      Real.sqrt (((specTotalRSS series n : ℚ) : ℝ) /
        (((series.length / n : ℕ) : ℝ) * ((n : ℕ) : ℝ))) := by
  have he := totalResidualSq_eq_spec series n hn
  refine ⟨(Nat.one_le_div_iff (by omega)).mpr hbox, he, ?_⟩
  simp only [calculateF_n, calculateF_n_sq]
  rw [he]
  congr 1
  push_cast
  ring

/-- Witness for C3 at the series `[1, 5, 2, 7]` with box size 4. -/
theorem calculateF_n_formula_witness :
    1 ≤ ([1, 5, 2, 7] : List ℚ).length / 4 ∧
    totalResidualSq [1, 5, 2, 7] 4 = specTotalRSS [1, 5, 2, 7] 4 ∧
    calculateF_n [1, 5, 2, 7] 4 =
      Real.sqrt (((specTotalRSS [1, 5, 2, 7] 4 : ℚ) : ℝ) /
        (((([1, 5, 2, 7] : List ℚ).length / 4 : ℕ) : ℝ) * ((4 : ℕ) : ℝ))) :=
  calculateF_n_formula [1, 5, 2, 7] 4 (by decide) (by decide)

/-! ### Offset invariance of the Fluctuation Estimator -/

/-- Adding a constant to every y-value leaves the fitted slope unchanged
and shifts the intercept by that constant. -/
theorem linearRegression_offset (x y : List ℚ) (c : ℚ)
    (hlen : x.length = y.length) (hx : x ≠ []) :
    linearRegression x (y.map (fun v => v + c))
      = ((linearRegression x y).1, (linearRegression x y).2 + c) := by
  have hn0 : (x.length : ℚ) ≠ 0 := by
    have h := List.length_pos.mpr hx
    exact_mod_cast Nat.pos_iff_ne_zero.mp h
  have hxy : (y.length : ℚ) = (x.length : ℚ) := by rw [hlen]
  simp only [linearRegression, Prod.mk.injEq]
  rw [sum_map_add, zip_mul_sum_add_right c x y hlen, hxy]
  rw [show (x.length : ℚ) * (((x.zip y).map (fun p => p.1 * p.2)).sum + c * x.sum)
      - x.sum * (y.sum + (x.length : ℚ) * c)
      = (x.length : ℚ) * ((x.zip y).map (fun p => p.1 * p.2)).sum
        - x.sum * y.sum from by ring]
  refine ⟨rfl, ?_⟩
  field_simp
  ring

theorem boxRSS_offset (n : ℕ) (seg : List ℚ) (c : ℚ) (hn : 0 < n)
    (hlen : seg.length = n) :
    boxRSS n (seg.map (fun v => v + c)) = boxRSS n seg := by
  have hxlen : ((List.range n).map (fun (k : ℕ) => (k : ℚ))).length = seg.length := by
    simp [hlen]
  have hxne : ((List.range n).map (fun (k : ℕ) => (k : ℚ))) ≠ [] := by
    simp only [ne_eq, List.map_eq_nil_iff, List.range_eq_nil]
    omega
  simp only [boxRSS]
  rw [linearRegression_offset _ seg c hxlen hxne]
  refine congrArg List.sum (List.map_congr_left fun k hk => ?_)
  rw [List.mem_range] at hk
  have hk2 : k < seg.length := by omega
  have hgd : (seg.map (fun v => v + c)).getD k 0 = seg.getD k 0 + c := by
    rw [List.getD_eq_getElem _ _ (by simpa using hk2),
      List.getD_eq_getElem _ _ hk2, List.getElem_map]
  simp only [hgd]
  ring

theorem totalResidualSq_offset (series : List ℚ) (n : ℕ) (c : ℚ) (hn : 0 < n) :
    totalResidualSq (series.map (fun v => v + c)) n = totalResidualSq series n := by
  simp only [totalResidualSq, List.length_map]
  refine congrArg List.sum (List.map_congr_left fun i hi => ?_)
  rw [List.mem_range] at hi
  rw [← List.map_drop, ← List.map_take]
  exact boxRSS_offset n _ c hn (seg_length_of_lt series n i hn hi)

/-- C8: with a positive box size and at least one complete box, adding a
constant `c` to every element of the integrated series leaves `F(n)`
unchanged: the per-box linear detrending absorbs a constant offset. -/
theorem calculateF_n_offset_invariant (series : List ℚ) (c : ℚ) (n : ℕ)
    (hn : 0 < n) (hbox : n ≤ series.length) :
    1 ≤ series.length / n ∧
    calculateF_n (series.map (fun v => v + c)) n = calculateF_n series n := by
  refine ⟨(Nat.one_le_div_iff hn).mpr hbox, ?_⟩
  simp only [calculateF_n, calculateF_n_sq, List.length_map]
  rw [totalResidualSq_offset series n c hn]

/-- Witness for C8 at the series `[2, 9, 4, 11]`, offset 7, box size 4. -/
theorem calculateF_n_offset_invariant_witness :
    1 ≤ ([2, 9, 4, 11] : List ℚ).length / 4 ∧
    calculateF_n (([2, 9, 4, 11] : List ℚ).map (fun v => v + 7)) 4 =
      calculateF_n [2, 9, 4, 11] 4 :=
  calculateF_n_offset_invariant [2, 9, 4, 11] 7 4 (by decide) (by decide)

/-! ### The Scaling-Exponent Estimator -/

/-- The `Fn > 0` test of the source is the decidable test `Fn_sq > 0`. -/
theorem calculateF_n_pos_iff (series : List ℚ) (n : ℕ) :
    0 < calculateF_n series n ↔ 0 < calculateF_n_sq series n := by
  simp only [calculateF_n]
  rw [Real.sqrt_pos]
  exact_mod_cast Iff.rfl

/-- The estimator signals `none` exactly on the short-cleaned-input branch. -/
theorem alpha1_none_iff (rr : List ℚ) :
    calculateDfaAlpha1 rr = none ↔ (preprocessRR rr).length < 50 := by
  simp only [calculateDfaAlpha1]
  split
  · rename_i h
    simpa using h
  · rename_i h
    simpa using h

/-- A constant replicate is a fully valid sequence when the constant is. -/
theorem chain'_replicate_rel (r : ℚ → ℚ → Prop) (a : ℚ) (h : r a a) :
    ∀ n, List.Chain' r (List.replicate n a)
  | 0 => by simp
  | 1 => by simp
  | n + 2 => by
    have ih := chain'_replicate_rel r a h (n + 1)
    rw [List.replicate_succ] at ih
    rw [List.replicate_succ, List.replicate_succ]
    exact List.chain'_cons.mpr ⟨h, ih⟩

theorem preprocess_replicate_800 (m : ℕ) :
    preprocessRR (List.replicate m (800:ℚ)) = List.replicate m 800 := by
  refine preprocess_valid_id _ ?_ ?_
  · intro x hx
    rw [List.eq_of_mem_replicate hx]
    norm_num [MIN_RR, MAX_RR]
  · exact chain'_replicate_rel relOk 800 (by norm_num [relOk]) m

theorem altPairs_length : ∀ n, (altPairs n).length = 2 * n
  | 0 => rfl
  | n + 1 => by
    simp only [altPairs, List.length_cons, altPairs_length n]
    omega

theorem altPairs_bounds : ∀ n, ∀ x ∈ altPairs n, MIN_RR ≤ x ∧ x ≤ MAX_RR
  | 0 => by simp [altPairs]
  | n + 1 => by
    intro x hx
    simp only [altPairs, List.mem_cons] at hx
    rcases hx with rfl | rfl | hx
    · norm_num [MIN_RR, MAX_RR]
    · norm_num [MIN_RR, MAX_RR]
    · exact altPairs_bounds n x hx

theorem altPairs_chain : ∀ n,
    List.Chain' relOk (altPairs n) ∧ List.Chain' relOk (820 :: altPairs n)
  | 0 => ⟨by simp [altPairs], by simp [altPairs]⟩
  | n + 1 => by
    obtain ⟨ih1, ih2⟩ := altPairs_chain n
    have r1 : relOk 800 820 := by norm_num [relOk]
    have r2 : relOk 820 800 := by norm_num [relOk]
    constructor
    · exact List.chain'_cons.mpr ⟨r1, ih2⟩
    · exact List.chain'_cons.mpr ⟨r2, List.chain'_cons.mpr ⟨r1, ih2⟩⟩

theorem preprocess_sample50 : preprocessRR sample50 = sample50 :=
  preprocess_valid_id _ (altPairs_bounds 25) (altPairs_chain 25).1

/-- C4: `calculateDfaAlpha1` returns the `null` sentinel exactly when the
cleaned sequence has fewer than 50 samples; in particular the 49-sample
fully valid input `sample49` gives `none` and the 50-sample fully valid
input `sample50` gives a numeric result. -/
theorem alpha1_insufficient_data_iff :
    (∀ rr : List ℚ, calculateDfaAlpha1 rr = none ↔ (preprocessRR rr).length < 50) ∧
    calculateDfaAlpha1 sample49 = none ∧
    (calculateDfaAlpha1 sample50).isSome = true := by
  refine ⟨alpha1_none_iff, ?_, ?_⟩
  · rw [alpha1_none_iff]
    show (preprocessRR (List.replicate 49 800)).length < 50
    rw [preprocess_replicate_800]
    simp
  · rw [Option.isSome_iff_ne_none, Ne, alpha1_none_iff, preprocess_sample50]
    show ¬ (altPairs 25).length < 50
    rw [altPairs_length]
    omega

/-! ### Degenerate input: all fluctuation values vanish -/

theorem getElem?_getD_zero (l : List ℚ) (hz : ∀ x ∈ l, x = 0) (k : ℕ) :
    l[k]?.getD 0 = 0 := by
  rcases h : l[k]? with _ | v
  · rfl
  · have hv : v ∈ l := by
      have := List.getElem?_eq_some_iff.mp h
      obtain ⟨hk, rfl⟩ := this
      exact List.getElem_mem hk
    simp [hz v hv]

theorem linearRegression_zero_y (x y : List ℚ) (hy : ∀ v ∈ y, v = 0) :
    linearRegression x y = ((0:ℚ), (0:ℚ)) := by
  have hSy : y.sum = 0 := List.sum_eq_zero hy
  have hSxy : ((x.zip y).map (fun p => p.1 * p.2)).sum = 0 := by
    refine List.sum_eq_zero ?_
    intro v hv
    rw [List.mem_map] at hv
    obtain ⟨p, hp, rfl⟩ := hv
    rw [hy p.2 (List.of_mem_zip hp).2, mul_zero]
  simp only [linearRegression, Prod.mk.injEq, hSy, hSxy]
  norm_num

theorem boxRSS_zero (n : ℕ) (seg : List ℚ) (hz : ∀ x ∈ seg, x = 0) :
    boxRSS n seg = 0 := by
  simp only [boxRSS]
  rw [linearRegression_zero_y _ seg hz]
  refine List.sum_eq_zero ?_
  intro v hv
  rw [List.mem_map] at hv
  obtain ⟨k, _, rfl⟩ := hv
  simp [getElem?_getD_zero seg hz k]

theorem calculateF_n_sq_zero (series : List ℚ) (hz : ∀ x ∈ series, x = 0)
    (n : ℕ) : calculateF_n_sq series n = 0 := by
  have h0 : totalResidualSq series n = 0 := by
    simp only [totalResidualSq]
    refine List.sum_eq_zero ?_
    intro v hv
    rw [List.mem_map] at hv
    obtain ⟨i, _, rfl⟩ := hv
    refine boxRSS_zero _ _ ?_
    intro x hx
    exact hz x (List.mem_of_mem_drop (List.mem_of_mem_take hx))
  simp only [calculateF_n_sq]
  rw [h0, zero_div]

theorem integrateGo_replicate (a : ℚ) :
    ∀ (m : ℕ) (s : ℚ), integrateGo a s (List.replicate m a) = List.replicate m s
  | 0, _ => rfl
  | m + 1, s => by
    rw [List.replicate_succ]
    simp only [integrateGo]
    rw [show s + (a - a) = s by ring, integrateGo_replicate a m s,
      List.replicate_succ]

theorem integrate_replicate (m : ℕ) (a : ℚ) :
    integrate (List.replicate m a) = List.replicate m 0 := by
  cases m with
  | zero => rfl
  | succ k =>
    have hmean : (List.replicate (k + 1) (a:ℚ)).sum
        / ((List.replicate (k + 1) (a:ℚ)).length : ℚ) = a := by
      rw [List.sum_replicate, List.length_replicate, nsmul_eq_mul]
      have hk : ((k:ℚ) + 1) ≠ 0 := by positivity
      push_cast
      field_simp
    simp only [integrate, hmean]
    exact integrateGo_replicate a (k + 1) 0

theorem goodBoxSizes_zero (series : List ℚ) (hz : ∀ x ∈ series, x = 0) :
    goodBoxSizes series = [] := by
  rw [goodBoxSizes, List.filter_eq_nil_iff]
  intro n _
  simp [calculateF_n_sq_zero series hz n]

/-- C5 (code bug evidence): with 50 identical 800 ms samples — a perfectly
constant cleaned sequence whose integrated series is identically zero —
every box size has `F(n) = 0` and is excluded, so fewer than 2 log-log
pairs are recorded; yet `calculateDfaAlpha1` does not return the `none`
sentinel: the source falls through to `linearRegression([], [])`, whose
slope in JavaScript is the division `0 / 0 = NaN`, returned as a number
rather than as `null`. -/
theorem alpha1_degenerate_not_none :
    goodBoxSizes (integrate (preprocessRR (List.replicate 50 (800:ℚ)))) = [] ∧
    calculateDfaAlpha1 (List.replicate 50 (800:ℚ)) ≠ none := by
  have hpre : preprocessRR (List.replicate 50 (800:ℚ)) = List.replicate 50 800 :=
    preprocess_replicate_800 50
  have hz : ∀ x ∈ List.replicate 50 (0:ℚ), x = 0 :=
    fun x hx => List.eq_of_mem_replicate hx
  constructor
  · rw [hpre, integrate_replicate]
    exact goodBoxSizes_zero _ hz
  · rw [Ne, alpha1_none_iff, hpre]
    simp

unseal Rat.mul Rat.add Rat.sub Rat.inv in
/-- C6 (code bug evidence): under JavaScript numeric semantics the
validator accepts `NaN` as-is: every comparison against NaN is false, so a
NaN sample passes both the range check and the 30 percent check and is
pushed unchanged into the cleaned output — contradicting the requirement
that a non-finite sample is never accepted as-is. -/
theorem preprocessJS_accepts_nan :
    preprocessJS [JSVal.fin 800, JSVal.fin 800, JSVal.nan]
      = [JSVal.fin 800, JSVal.fin 800, JSVal.nan] := by
  decide

unseal Rat.mul Rat.add Rat.sub Rat.inv in
/-- Sanity check of the embedding: a 50 ms glitch between valid ~800 ms
beats is replaced by the mean of the previous accepted and next raw beat. -/
theorem preprocessRR_glitch_interpolated :
    preprocessRR [800, 50, 820] = [800, 810, 820] := by decide

unseal Rat.mul Rat.add Rat.sub Rat.inv in
/-- Sanity check of the JavaScript truthiness modelling: a raw `0` in the
`next` position is falsy, so the out-of-range `2000` is clamped to the
previous value `800` instead of being averaged with `0`. -/
theorem preprocessRR_zero_next_clamps :
    preprocessRR [800, 2000, 0] = [800, 800, 800] := by decide

end Dfa
